import Mathlib

/-!
The stopping predicate, the bias helpers and the epoch loop of libdnn.

A shallow embedding of three pieces of the libdnn sources:

* `isEoutStopDecrease` (dnn-train.cpp, lines 173-181), the early-stopping predicate, with the
  `size_t` subtraction `epoch - i` computed modulo `2 ^ 64` and every read of `Eout` recorded;
* the matrix overloads of `add_bias` and `remove_bias` (include/dnn.h, lines 95-116), over a
  matrix type whose element access is checked against the shape;
* the epoch loop of `dnn_train` (dnn-train.cpp, lines 97-149), as a state machine over abstract
  network, data-set and floating-point operations, with a trace of the events of a run.

Definitions come first, theorems after them.
-/

namespace LibDnn

/-! ## Definitions -/

/-! ### The stopping predicate -/

/-- The number of values of the type `size_t` (64 bits). -/
def SIZE_T_MOD : Nat := 2 ^ 64

/-- Subtraction `a - b` on `size_t`: the difference modulo `2 ^ 64`. -/
def subSizeT (a b : Nat) : Nat := (a + (SIZE_T_MOD - b % SIZE_T_MOD)) % SIZE_T_MOD

/-- What one call of `isEoutStopDecrease` does: the indices at which it reads `Eout`, in order,
and the value it returns.  The result `none` stands for a read outside the vector, which is
undefined behaviour in the source. -/
structure StopRun where
  reads : List Nat
  result : Option Bool
  deriving DecidableEq, Repr

/-- The loop `for (size_t i = 0; i < nNonIncEpoch; ++i)` of `isEoutStopDecrease` (lines
175-178), run over the values of `i` still to come.  An iteration whose guard `epoch - i > 0`
holds reads `Eout[epoch]` and `Eout[epoch - i]` and returns false when the first is greater. -/
def stopScan (Eout : List Nat) (epoch : Nat) : List Nat → StopRun
  | [] => ⟨[], some true⟩
  | i :: rest =>
    if 0 < subSizeT epoch i then
      match Eout[epoch]?, Eout[subSizeT epoch i]? with
      | some a, some b =>
        if b < a then ⟨[epoch, subSizeT epoch i], some false⟩
        else
          let r := stopScan Eout epoch rest
          ⟨epoch :: subSizeT epoch i :: r.reads, r.result⟩
      | _, _ => ⟨[epoch, subSizeT epoch i], none⟩
    else stopScan Eout epoch rest

/-- The function `isEoutStopDecrease(Eout, epoch, nNonIncEpoch)` with its reads. -/
def isEoutStopDecreaseRun (Eout : List Nat) (epoch nNonIncEpoch : Nat) : StopRun :=
  stopScan Eout epoch (List.range nNonIncEpoch)

/-- The value returned by `isEoutStopDecrease(Eout, epoch, nNonIncEpoch)`. -/
def isEoutStopDecrease (Eout : List Nat) (epoch nNonIncEpoch : Nat) : Option Bool :=
  (isEoutStopDecreaseRun Eout epoch nNonIncEpoch).result

/-- One iteration passes: its guard is false, or both reads succeed and the comparison
`Eout[epoch] > Eout[epoch - i]` is false. -/
def iterPasses (Eout : List Nat) (epoch i : Nat) : Prop :=
  0 < subSizeT epoch i →
    ∃ a b, Eout[epoch]? = some a ∧ Eout[subSizeT epoch i]? = some b ∧ a ≤ b

/-- One iteration is defined: its guard is false, or both reads are in bounds. -/
def iterDefined (Eout : List Nat) (epoch i : Nat) : Prop :=
  0 < subSizeT epoch i → epoch < Eout.length ∧ subSizeT epoch i < Eout.length

/-! ### Matrices and the bias helpers -/

/-- An access that a matrix operation attempted outside the shape of its operand. -/
inductive Fault where
  | readOutOfBounds (row col : Nat)
  | writeOutOfBounds (row col : Nat)
  deriving DecidableEq, Repr

/-- Modelled from the spec: `Matrix2D<T>` (declared in `matrix.h`, absent from the sources):
a dense matrix with explicit row and column counts, stored as its list of rows.  Element
access `A[i][j]` is defined only for `i < rows` and `j < cols`. -/
structure Matrix2D (T : Type) where
  rows : Nat
  cols : Nat
  elems : List (List T)
  deriving DecidableEq, Repr

namespace Matrix2D

variable {T : Type}

/-- Modelled from the spec: the constructor `Matrix2D<T>(rows, cols)`; the initial content is
overwritten before it is observed. -/
def create [Zero T] (rows cols : Nat) : Matrix2D T :=
  ⟨rows, cols, List.replicate rows (List.replicate cols 0)⟩

/-- Modelled from the spec: the read `A[i][j]`. -/
def read (A : Matrix2D T) (i j : Nat) : Except Fault T :=
  if i < A.rows ∧ j < A.cols then
    match (A.elems[i]?).bind (fun row => row[j]?) with
    | some v => .ok v
    | none => .error (.readOutOfBounds i j)
  else .error (.readOutOfBounds i j)

/-- Modelled from the spec: the write `A[i][j] = v`. -/
def write (A : Matrix2D T) (i j : Nat) (v : T) : Except Fault (Matrix2D T) :=
  if i < A.rows ∧ j < A.cols then
    .ok { A with elems := A.elems.modify (fun row => row.set j v) i }
  else .error (.writeOutOfBounds i j)

end Matrix2D

/-- The matrix overload of add_bias (dnn.h, lines 95-105). -/
def add_bias {T : Type} [Zero T] [One T] (A : Matrix2D T) : Except Fault (Matrix2D T) :=
  let B0 : Matrix2D T := Matrix2D.create A.rows ((A.cols + 1) % 2 ^ 64)
  (List.range B0.rows).foldlM (fun B i => do
    let B1 ← (List.range B.cols).foldlM (fun B j => do
      let v ← A.read i j
      B.write i j v) B
    B1.write i B1.cols 1) B0

/-- The matrix overload of remove_bias (dnn.h, lines 107-116); the new value of `A` is
returned. -/
def remove_bias {T : Type} [Zero T] (A : Matrix2D T) : Except Fault (Matrix2D T) :=
  let B0 : Matrix2D T := Matrix2D.create A.rows ((A.cols + (2 ^ 64 - 1)) % 2 ^ 64)
  (List.range B0.rows).foldlM (fun B i =>
    (List.range B.cols).foldlM (fun B j => do
      let v ← A.read i j
      B.write i j v) B) B0


/-- The shape invariant of a matrix value: `rows` rows of `cols` elements each. -/
def Matrix2D.WellFormed {T : Type} (A : Matrix2D T) : Prop :=
  A.elems.length = A.rows ∧ ∀ row ∈ A.elems, row.length = A.cols

/-! ### The epoch loop of `dnn_train` -/

/-- Modelled from the spec: the record `Config` read through `dnn.getConfig()` (its declaration
is absent from the sources): learning rate, weight-initialisation variance, minimum validation
accuracy, maximum number of epochs and the non-increase window. -/
structure Config (F : Type) where
  learningRate : F
  variance : F
  minValidAccuracy : F
  maxEpoch : Nat
  nNonIncEpoch : Nat
  deriving DecidableEq, Repr

/-- The operations `dnn_train` calls but does not define, on an abstract world `W` (the network
and the two data sets) with an abstract type `F` of floats. -/
structure TrainOps (W F : Type) where
  /-- The call `dnn.getConfig()`. -/
  getConfig : W → Config F
  /-- The call `train.size()`. -/
  trainSize : W → Nat
  /-- The call `valid.size()`. -/
  validSize : W → Nat
  /-- The batch loop of one epoch (lines 117-128) for a given batch size. -/
  runBatches : Nat → W → W
  /-- The call `dnn_predict(dnn, train, errorMeasure)`. -/
  predictTrain : W → Nat × W
  /-- The call `dnn_predict(dnn, valid, errorMeasure)`. -/
  predictValid : W → Nat × W
  /-- The call `dnn.adjustLearningRate(trainAcc)`. -/
  adjustLearningRate : F → W → W
  /-- The expression `1.0f - (float) E / n`. -/
  accuracy : Nat → Nat → F
  /-- The comparison `x < y` on floats. -/
  lt : F → F → Bool
  /-- The constant `0` as a float. -/
  zero : F

/-- What the loop does that is visible from outside, one event per source statement. -/
inductive Event (F : Type) where
  | epochStart (epoch : Nat)
  | evalTrain (epoch : Nat) (Ein : Nat)
  | pushBack (epoch : Nat) (v : Nat)
  | continueEpoch (epoch : Nat)
  | readEout (idx : Nat) (v : Nat)
  | decision (epoch : Nat) (converged : Bool)
  | adjustLearningRate (epoch : Nat) (trainAcc : F)
  deriving DecidableEq, Repr

/-- The variables of `dnn_train` that live across epochs, and the events so far. -/
structure TrainState (W F : Type) where
  world : W
  Ein : Nat
  Eout : List Nat
  epoch : Nat
  trace : List (Event F)

/-- How one execution of the loop body ends. -/
inductive BodyExit (W F : Type) where
  /-- The end of the body or `continue`: control goes to `++epoch`. -/
  | next (s : TrainState W F)
  /-- The statement `break`. -/
  | brk (s : TrainState W F)
  /-- A read outside `Eout`. -/
  | fault (s : TrainState W F)

/-- The values one epoch computes before its first branch. -/
structure EpochEval (W F : Type) where
  world : W
  Ein : Nat
  EoutNew : Nat
  trainAcc : F

/-- The straight-line part of the loop body (lines 117-133): the batch loop, the two
evaluations and the training accuracy. -/
def epochEval {W F : Type} (ops : TrainOps W F) (nTrain batchSize : Nat)
    (s : TrainState W F) : EpochEval W F :=
  let w1 := ops.runBatches batchSize s.world
  let p1 := ops.predictTrain w1
  let p2 := ops.predictValid p1.2
  ⟨p2.2, p1.1, p2.1, ops.accuracy p1.1 nTrain⟩

/-- The body of the epoch loop (lines 117-148).  After the evaluations the new count is
appended to `Eout` (line 131); `trainAcc < 0` leads to `continue` (lines 135-138); otherwise
`Eout[epoch]` is read for `validAcc` (line 140) and for the report (line 143), the test
`validAcc > minValidAccuracy && isEoutStopDecrease(...)` decides on `break` (lines 145-146),
and `adjustLearningRate(trainAcc)` is the last statement (line 148). -/
def epochBody {W F : Type} (ops : TrainOps W F) (nTrain nValid batchSize : Nat)
    (s : TrainState W F) : BodyExit W F :=
  let m := epochEval ops nTrain batchSize s
  let Eout := s.Eout ++ [m.EoutNew]
  let tr1 := s.trace ++
    [.epochStart s.epoch, .evalTrain s.epoch m.Ein, .pushBack s.epoch m.EoutNew]
  if ops.lt m.trainAcc ops.zero then
    .next ⟨m.world, m.Ein, Eout, s.epoch, tr1 ++ [.continueEpoch s.epoch]⟩
  else
    match Eout[s.epoch]? with
    | none => .fault ⟨m.world, m.Ein, Eout, s.epoch, tr1⟩
    | some v =>
      let validAcc := ops.accuracy v nValid
      let tr2 := tr1 ++ [.readEout s.epoch v, .readEout s.epoch v]
      if ops.lt (ops.getConfig m.world).minValidAccuracy validAcc then
        match isEoutStopDecrease Eout s.epoch (ops.getConfig m.world).nNonIncEpoch with
        | none => .fault ⟨m.world, m.Ein, Eout, s.epoch, tr2⟩
        | some true => .brk ⟨m.world, m.Ein, Eout, s.epoch, tr2 ++ [.decision s.epoch true]⟩
        | some false =>
          .next ⟨ops.adjustLearningRate m.trainAcc m.world, m.Ein, Eout, s.epoch,
            tr2 ++ [.decision s.epoch false, .adjustLearningRate s.epoch m.trainAcc]⟩
      else
        .next ⟨ops.adjustLearningRate m.trainAcc m.world, m.Ein, Eout, s.epoch,
          tr2 ++ [.decision s.epoch false, .adjustLearningRate s.epoch m.trainAcc]⟩

/-- How a run of the loop ends. -/
inductive Outcome where
  | converged
  | maxEpochReached
  | fault
  | outOfFuel
  deriving DecidableEq, Repr

/-- The outcome of a run and the state it ends in. -/
structure TrainResult (W F : Type) where
  outcome : Outcome
  state : TrainState W F

/-- The loop `for (epoch = 0; epoch < MAX_EPOCH; ++epoch)` (lines 115-149), by fuel.  Since
`epoch < MAX_EPOCH` holds before `++epoch`, the increment does not wrap. -/
def trainLoop {W F : Type} (ops : TrainOps W F) (nTrain nValid batchSize MAX_EPOCH : Nat) :
    Nat → TrainState W F → TrainResult W F
  | 0, s => ⟨.outOfFuel, s⟩
  | fuel + 1, s =>
    if s.epoch < MAX_EPOCH then
      match epochBody ops nTrain nValid batchSize s with
      | .next s1 =>
        trainLoop ops nTrain nValid batchSize MAX_EPOCH fuel { s1 with epoch := s1.epoch + 1 }
      | .brk s1 => ⟨.converged, s1⟩
      | .fault s1 => ⟨.fault, s1⟩
    else ⟨.maxEpochReached, s⟩

/-- The state on entry to the loop: `Ein = 1`, `Eout` empty, `epoch = 0` (lines 105-115). -/
def initState {W F : Type} (w0 : W) : TrainState W F := ⟨w0, 1, [], 0, []⟩

/-- The training run `dnn_train` up to the end of the epoch loop (lines 97-149). -/
def dnn_train {W F : Type} (ops : TrainOps W F) (w0 : W) (batchSize fuel : Nat) :
    TrainResult W F :=
  trainLoop ops (ops.trainSize w0) (ops.validSize w0) batchSize (ops.getConfig w0).maxEpoch
    fuel (initState w0)

/-- The state at the head of the `k`-th epoch after `s`, when the loop gets there: `k` bodies
have been run and each ended at `++epoch`. -/
def headState {W F : Type} (ops : TrainOps W F) (nTrain nValid batchSize : Nat) :
    Nat → TrainState W F → Option (TrainState W F)
  | 0, s => some s
  | k + 1, s =>
    match epochBody ops nTrain nValid batchSize s with
    | .next s1 => headState ops nTrain nValid batchSize k { s1 with epoch := s1.epoch + 1 }
    | _ => none

/-- The break condition of the body at a loop-head state: the `continue` guard `trainAcc < 0`
is false, `validAcc > minValidAccuracy`, and the stopping predicate returns true. -/
def convergesAt {W F : Type} (ops : TrainOps W F) (nTrain nValid batchSize : Nat)
    (s : TrainState W F) : Prop :=
  let m := epochEval ops nTrain batchSize s
  ops.lt m.trainAcc ops.zero = false ∧
  ops.lt (ops.getConfig m.world).minValidAccuracy (ops.accuracy m.EoutNew nValid) = true ∧
  isEoutStopDecrease (s.Eout ++ [m.EoutNew]) s.epoch (ops.getConfig m.world).nNonIncEpoch
    = some true

/-- The stopping predicate is called at a loop-head state and reads outside `Eout`. -/
def stopTestFaults {W F : Type} (ops : TrainOps W F) (nTrain nValid batchSize : Nat)
    (s : TrainState W F) : Prop :=
  let m := epochEval ops nTrain batchSize s
  ops.lt m.trainAcc ops.zero = false ∧
  ops.lt (ops.getConfig m.world).minValidAccuracy (ops.accuracy m.EoutNew nValid) = true ∧
  isEoutStopDecrease (s.Eout ++ [m.EoutNew]) s.epoch (ops.getConfig m.world).nNonIncEpoch
    = none

/-- Number of epochs whose body was entered. -/
def epochsExecuted {F : Type} (tr : List (Event F)) : Nat :=
  tr.countP (fun ev => match ev with | .epochStart _ => true | _ => false)

/-- Number of calls of `adjustLearningRate`. -/
def adjustCalls {F : Type} (tr : List (Event F)) : Nat :=
  tr.countP (fun ev => match ev with | .adjustLearningRate _ _ => true | _ => false)

/-- Number of epochs that took the `continue` path. -/
def continueCount {F : Type} (tr : List (Event F)) : Nat :=
  tr.countP (fun ev => match ev with | .continueEpoch _ => true | _ => false)

/-- The state a body exit carries. -/
def BodyExit.state {W F : Type} : BodyExit W F → TrainState W F
  | .next s => s
  | .brk s => s
  | .fault s => s

section Invariants

variable {W F : Type} (ops : TrainOps W F) (nTrain : Nat)

/-- What holds of the history and the events after `k` executed epochs, `c` of which ended
neither at `continue` nor with a call of `adjustLearningRate`. -/
structure TraceInv (k c : Nat) (Eout : List Nat) (tr : List (Event F)) : Prop where
  len : Eout.length = k
  started : epochsExecuted tr = k
  calls : adjustCalls tr + continueCount tr + c = k
  pushed : ∀ e v, Event.pushBack e v ∈ tr → Eout[e]? = some v
  reads : ∀ idx v, Event.readEout idx v ∈ tr → Event.pushBack idx v ∈ tr
  order : ∀ p e acc, tr[p]? = some (Event.adjustLearningRate e acc) →
    ∃ q ein, p = q + 1 ∧ tr[q]? = some (Event.decision e false) ∧
      Event.evalTrain e ein ∈ tr ∧ acc = ops.accuracy ein nTrain

/-- What holds of the events one epoch adds. -/
structure BlockOk (k eo c : Nat) (blk : List (Event F)) : Prop where
  started : epochsExecuted blk = 1
  calls : adjustCalls blk + continueCount blk + c = 1
  pushed : ∀ e v, Event.pushBack e v ∈ blk → e = k ∧ v = eo
  pushedIn : Event.pushBack k eo ∈ blk
  reads : ∀ idx v, Event.readEout idx v ∈ blk → idx = k ∧ v = eo
  order : ∀ p e acc, blk[p]? = some (Event.adjustLearningRate e acc) →
    ∃ q ein, p = q + 1 ∧ blk[q]? = some (Event.decision e false) ∧
      Event.evalTrain e ein ∈ blk ∧ acc = ops.accuracy ein nTrain

end Invariants

/-! ### Concrete runs -/

/-- A scripted world for concrete runs: the configuration (learning rate, variance, minimum
validation accuracy, maximum number of epochs, window), the sizes of the two sets, the error
counts the two evaluations return epoch by epoch, and the number of learning-rate adjustments
made so far. -/
structure Script where
  cfg : Config Int
  nTrain : Nat
  nValid : Nat
  evals : List (Nat × Nat)
  adjusted : Nat
  deriving DecidableEq, Repr

/-- Operations over a scripted world, with `Int` for floats and the accuracy scaled by the set
size: `accuracy E n = n - E` has the sign of `1 - E / n`. -/
def scriptOps : TrainOps Script Int where
  getConfig := fun w => w.cfg
  trainSize := fun w => w.nTrain
  validSize := fun w => w.nValid
  runBatches := fun _ w => w
  predictTrain := fun w => ((w.evals.headD (0, 0)).1, w)
  predictValid := fun w => ((w.evals.headD (0, 0)).2, { w with evals := w.evals.tail })
  adjustLearningRate := fun _ w => { w with adjusted := w.adjusted + 1 }
  accuracy := fun E n => (n : Int) - (E : Int)
  lt := fun x y => decide (x < y)
  zero := 0

/-- One epoch allowed, window 1, threshold 0; the training evaluation reports 2 errors on a
set of size 1, so `trainAcc < 0`, and the validation evaluation reports 0 errors. -/
def continueWorld : Script := ⟨⟨0, 0, 0, 1, 1⟩, 1, 1, [(2, 0)], 0⟩

/-- One epoch allowed, window 1, threshold 0; both evaluations report 0 errors. -/
def convergeWorld : Script := ⟨⟨0, 0, 0, 1, 1⟩, 1, 1, [(0, 0)], 0⟩

/-- One epoch allowed, window 1, threshold 5 of 10; 6 validation errors, so the validation
accuracy stays below the threshold. -/
def adjustWorld : Script := ⟨⟨0, 0, 5, 1, 1⟩, 10, 10, [(3, 6)], 0⟩

/-- Three epochs allowed, window 2, threshold 5 of 10; the validation accuracy passes the
threshold in the second epoch. -/
def twoEpochWorld : Script := ⟨⟨0, 0, 5, 3, 2⟩, 10, 10, [(3, 6), (2, 4), (1, 3)], 0⟩

/-- Three epochs allowed, window 2, threshold 5 of 10; the validation accuracy passes the
threshold already in the first epoch. -/
def wrapWorld : Script := ⟨⟨0, 0, 5, 3, 2⟩, 10, 10, [(3, 2), (2, 4), (1, 3)], 0⟩

/-- A one by one matrix. -/
def oneByOne : Matrix2D Int := ⟨1, 1, [[7]]⟩

/-! ## Theorems -/

/-! ### The stopping predicate -/

/-- Without wrap-around the `size_t` difference is the difference of the numbers. -/
theorem subSizeT_of_le {a b : Nat} (hb : b ≤ a) (ha : a < 2 ^ 64) : subSizeT a b = a - b := by
  unfold subSizeT SIZE_T_MOD
  have hb2 : b < 2 ^ 64 := lt_of_le_of_lt hb ha
  rw [Nat.mod_eq_of_lt hb2]
  have : a + (2 ^ 64 - b) = (a - b) + 2 ^ 64 := by omega
  rw [this, Nat.add_mod_right, Nat.mod_eq_of_lt (by omega)]

/-- The scan returns true exactly when every iteration passes. -/
theorem stopScan_true_iff (Eout : List Nat) (epoch : Nat) (is : List Nat) :
    (stopScan Eout epoch is).result = some true ↔ ∀ i ∈ is, iterPasses Eout epoch i := by
  induction is with
  | nil => simp [stopScan]
  | cons i rest ih =>
    simp only [List.mem_cons, forall_eq_or_imp, ← ih]
    unfold iterPasses
    rw [stopScan]
    by_cases hg : 0 < subSizeT epoch i
    · simp only [hg, if_true, true_implies]
      cases h1 : Eout[epoch]? with
      | none => simp
      | some a =>
        cases h2 : Eout[subSizeT epoch i]? with
        | none => simp
        | some b =>
          by_cases hlt : b < a
          · simp [hlt]
          · simp [hlt, Nat.le_of_not_lt hlt]
    · simp [hg]

/-- The scan returns a value when every iteration is defined. -/
theorem stopScan_isSome (Eout : List Nat) (epoch : Nat) (is : List Nat)
    (h : ∀ i ∈ is, iterDefined Eout epoch i) : (stopScan Eout epoch is).result.isSome = true := by
  induction is with
  | nil => simp [stopScan]
  | cons i rest ih =>
    have hi := h i (List.mem_cons_self _ _)
    have hrest := ih (fun j hj => h j (List.mem_cons_of_mem _ hj))
    unfold iterDefined at hi
    rw [stopScan]
    by_cases hg : 0 < subSizeT epoch i
    · obtain ⟨h1, h2⟩ := hi hg
      simp only [hg, if_true, List.getElem?_eq_getElem h1, List.getElem?_eq_getElem h2]
      by_cases hlt : Eout[subSizeT epoch i] < Eout[epoch]
      · simp [hlt]
      · simp [hlt, hrest]
    · simp [hg, hrest]

/-- Every index read by the scan is `epoch` or a difference `epoch - i` that passed the
guard. -/
theorem stopScan_reads (Eout : List Nat) (epoch : Nat) (is : List Nat) :
    ∀ idx ∈ (stopScan Eout epoch is).reads,
      idx = epoch ∨ ∃ i ∈ is, 0 < subSizeT epoch i ∧ idx = subSizeT epoch i := by
  induction is with
  | nil => simp [stopScan]
  | cons i rest ih =>
    intro idx hidx
    rw [stopScan] at hidx
    by_cases hg : 0 < subSizeT epoch i
    · simp only [hg, if_true] at hidx
      have key : idx = epoch ∨ idx = subSizeT epoch i ∨ idx ∈ (stopScan Eout epoch rest).reads := by
        split at hidx
        · split at hidx
          · simp at hidx; tauto
          · simp at hidx; tauto
        · simp at hidx; tauto
      rcases key with h | h | h
      · exact Or.inl h
      · exact Or.inr ⟨i, List.mem_cons_self _ _, hg, h⟩
      · rcases ih idx h with h' | ⟨j, hj, hj2⟩
        · exact Or.inl h'
        · exact Or.inr ⟨j, List.mem_cons_of_mem _ hj, hj2⟩
    · simp only [hg, if_false] at hidx
      rcases ih idx hidx with h' | ⟨j, hj, hj2⟩
      · exact Or.inl h'
      · exact Or.inr ⟨j, List.mem_cons_of_mem _ hj, hj2⟩


/-- An in-bounds read returns the entry. -/
theorem getElem?_eq_some_getD (l : List Nat) {k : Nat} (hk : k < l.length) :
    l[k]? = some (l.getD k 0) := by
  simp [List.getD, List.getElem?_eq_getElem hk]

/-- An iteration with `i <= epoch` passes exactly when it is skipped by the guard (`i = epoch`)
or `Eout[epoch] <= Eout[epoch - i]`. -/
theorem iterPasses_no_wrap {Eout : List Nat} {epoch i : Nat} (hsz : epoch < 2 ^ 64)
    (he : epoch < Eout.length) (hi : i ≤ epoch) :
    iterPasses Eout epoch i ↔ (i < epoch → Eout.getD epoch 0 ≤ Eout.getD (epoch - i) 0) := by
  unfold iterPasses
  rw [subSizeT_of_le hi hsz, getElem?_eq_some_getD Eout he,
    getElem?_eq_some_getD Eout (show epoch - i < Eout.length by omega)]
  constructor
  · intro h hlt
    obtain ⟨a, b, ha, hb, hab⟩ := h (by omega)
    simp only [Option.some.injEq] at ha hb
    omega
  · intro h hpos
    exact ⟨_, _, rfl, rfl, h (by omega)⟩

/-- An iteration with `i <= epoch` reads in bounds. -/
theorem iterDefined_no_wrap {Eout : List Nat} {epoch i : Nat} (hsz : epoch < 2 ^ 64)
    (he : epoch < Eout.length) (hi : i ≤ epoch) : iterDefined Eout epoch i := by
  unfold iterDefined
  rw [subSizeT_of_le hi hsz]
  intro _
  omega

/-- Without wrap-around the predicate returns true exactly when the latest entry is at most
every earlier entry of the window at a positive index. -/
theorem stop_no_wrap_true_iff {Eout : List Nat} {epoch window : Nat} (hsz : epoch < 2 ^ 64)
    (he : epoch < Eout.length) (hw : window ≤ epoch + 1) :
    isEoutStopDecrease Eout epoch window = some true ↔
      ∀ i, i < window → i < epoch → Eout.getD epoch 0 ≤ Eout.getD (epoch - i) 0 := by
  unfold isEoutStopDecrease isEoutStopDecreaseRun
  rw [stopScan_true_iff]
  constructor
  · intro h i hi
    exact (iterPasses_no_wrap hsz he (by omega)).1 (h i (List.mem_range.2 hi))
  · intro h i hi
    have hi2 := List.mem_range.1 hi
    exact (iterPasses_no_wrap hsz he (by omega)).2 (h i hi2)

/-- Without wrap-around the predicate returns a value. -/
theorem stop_no_wrap_isSome {Eout : List Nat} {epoch window : Nat} (hsz : epoch < 2 ^ 64)
    (he : epoch < Eout.length) (hw : window ≤ epoch + 1) :
    (isEoutStopDecrease Eout epoch window).isSome = true := by
  unfold isEoutStopDecrease isEoutStopDecreaseRun
  apply stopScan_isSome
  intro i hi
  have hi2 := List.mem_range.1 hi
  exact iterDefined_no_wrap hsz he (by omega)

/-- A defined result that is not true is false. -/
theorem optBool_eq_false_of {o : Option Bool} (h1 : o.isSome = true) (h2 : o ≠ some true) :
    o = some false := by
  cases o with
  | none => simp at h1
  | some b => cases b <;> simp_all

/-- Two defined results that are true together are equal. -/
theorem optBool_ext {o p : Option Bool} (ho : o.isSome = true) (hp : p.isSome = true)
    (h : o = some true ↔ p = some true) : o = p := by
  cases o with
  | none => simp at ho
  | some a =>
    cases p with
    | none => simp at hp
    | some b => cases a <;> cases b <;> simp_all

/-- In a non-increasing tail the last entry is at most every entry of the tail. -/
theorem tail_min_of_nonincreasing (Eout : List Nat) (epoch lo : Nat)
    (hmono : ∀ j, lo ≤ j → j < epoch → Eout.getD (j + 1) 0 ≤ Eout.getD j 0) :
    ∀ d k, k + d = epoch → lo ≤ k → Eout.getD epoch 0 ≤ Eout.getD k 0 := by
  intro d
  induction d with
  | zero => intro k hk _; simp at hk; subst hk; exact le_refl _
  | succ d ih =>
    intro k hk hlo
    have h1 := ih (k + 1) (by omega) (by omega)
    have h2 := hmono k hlo (by omega)
    exact le_trans h1 h2

/-- Without wrap-around (`window <= epoch + 1`) every read of `Eout` is at an index in
`[0, epoch]`. -/
theorem stop_reads_no_wrap {Eout : List Nat} {epoch window : Nat} (hsz : epoch < 2 ^ 64)
    (hw : window ≤ epoch + 1) :
    ∀ idx ∈ (isEoutStopDecreaseRun Eout epoch window).reads, idx ≤ epoch := by
  intro idx hidx
  rcases stopScan_reads Eout epoch (List.range window) idx hidx with h | ⟨i, hi, -, h⟩
  · omega
  · have hi2 := List.mem_range.1 hi
    rw [subSizeT_of_le (by omega) hsz] at h
    omega

/-! ### Claims about `isEoutStopDecrease` -/

/-- C1 (counterexample): the claimed equivalence fails on the code.  For the history `[1, 2]`
at epoch 1 with window 2 the code returns true although `Eout[1] <= Eout[0]` is false (the entry
at index 0 is skipped by the guard `epoch - i > 0`); for `[5]` at epoch 0 with window 2 the
claimed condition holds but the code reads out of bounds and returns no defined value. -/
theorem C1_counterexample :
    (isEoutStopDecrease [1, 2] 1 2 = some true ∧
      ¬ (∀ i, i < 2 → i ≤ 1 → [1, 2].getD 1 0 ≤ [1, 2].getD (1 - i) 0)) ∧
    (isEoutStopDecrease [5] 0 2 = none ∧
      (∀ i, i < 2 → i ≤ 0 → [5].getD 0 0 ≤ [5].getD (0 - i) 0)) := by
  refine ⟨⟨by decide, ?_⟩, ⟨by decide, ?_⟩⟩
  · intro h
    exact absurd (h 1 (by decide) (by decide)) (by decide)
  · intro i _ hi
    have : i = 0 := by omega
    subst this
    decide

/-- C1 (amended): when no wrap-around occurs (`window <= epoch + 1`) the call returns a value,
and it returns true if and only if `Eout[epoch] <= Eout[epoch - i]` for every `i` in
`[0, window)` with `i < epoch`, i.e. `epoch - i` a positive index (index 0 excluded). -/
theorem C1_isEoutStopDecrease_iff (Eout : List Nat) (epoch window : Nat)
    (hsz : epoch < 2 ^ 64) (he : epoch < Eout.length) (hw : window ≤ epoch + 1) :
    (isEoutStopDecrease Eout epoch window).isSome = true ∧
    (isEoutStopDecrease Eout epoch window = some true ↔
      ∀ i, i < window → i < epoch → Eout.getD epoch 0 ≤ Eout.getD (epoch - i) 0) :=
  ⟨stop_no_wrap_isSome hsz he hw, stop_no_wrap_true_iff hsz he hw⟩

/-- C1 (witness): the amended claim on the history `[4, 3, 3]` at epoch 2 with window 3. -/
theorem C1_isEoutStopDecrease_iff_witness :
    (isEoutStopDecrease [4, 3, 3] 2 3).isSome = true ∧
    (isEoutStopDecrease [4, 3, 3] 2 3 = some true ↔
      ∀ i, i < 3 → i < 2 → [4, 3, 3].getD 2 0 ≤ [4, 3, 3].getD (2 - i) 0) :=
  C1_isEoutStopDecrease_iff [4, 3, 3] 2 3 (by norm_num) (by decide) (by decide)

/-- C2 (failing input): for the one-entry history `[5]` at epoch 0 with window 2 the subtraction
`epoch - i` wraps at `i = 1` to `2 ^ 64 - 1`, the guard `epoch - i > 0` passes, and `Eout` is read
at index `2 ^ 64 - 1`, which is not in `[0, epoch]`. -/
theorem C2_read_out_of_bounds :
    isEoutStopDecreaseRun [5] 0 2 = ⟨[0, 2 ^ 64 - 1], none⟩ ∧
    ¬ (∀ idx ∈ (isEoutStopDecreaseRun [5] 0 2).reads, idx ≤ 0) := by
  refine ⟨by decide, ?_⟩
  intro h
  have h2 := h (2 ^ 64 - 1) (by decide)
  exact absurd h2 (by decide)

/-- C7 (counterexample): an increase between two consecutive epochs inside the tail does not
make the code return false.  In `[9, 1, 2, 0]` at epoch 3 with window 3 the tail `1, 2, 0`
rises from index 1 to index 2, yet the code returns true; in `[1, 2]` at epoch 1 with window 2
the rise is from index 0 to index 1 and the code returns true because index 0 is skipped. -/
theorem C7_counterexample :
    (3 < [9, 1, 2, 0].length ∧ 2 ≤ 3 ∧ 3 ≤ 3 + 1 ∧
      (3 + 1 - 3 ≤ 1 ∧ 1 < 3 ∧ [9, 1, 2, 0].getD 1 0 < [9, 1, 2, 0].getD (1 + 1) 0) ∧
      isEoutStopDecrease [9, 1, 2, 0] 3 3 = some true) ∧
    (1 < [1, 2].length ∧ 2 ≤ 2 ∧ 2 ≤ 1 + 1 ∧
      (1 + 1 - 2 ≤ 0 ∧ 0 < 1 ∧ [1, 2].getD 0 0 < [1, 2].getD (0 + 1) 0) ∧
      isEoutStopDecrease [1, 2] 1 2 = some true) := by
  decide

/-- C7 (amended): the code returns false when the latest entry exceeds an earlier entry of the
window at a positive index: for `window <= epoch + 1`, if there is `j` with
`epoch - window + 1 <= j < epoch`, `1 <= j` and `Eout[j] < Eout[epoch]`, the result is false
(such a `j` exists only when `2 <= window`). -/
theorem C7_isEoutStopDecrease_false (Eout : List Nat) (epoch window : Nat)
    (hsz : epoch < 2 ^ 64) (he : epoch < Eout.length)
    (hw : window ≤ epoch + 1) (j : Nat) (hj1 : epoch + 1 - window ≤ j) (hj2 : j < epoch)
    (hj0 : 1 ≤ j) (hinc : Eout.getD j 0 < Eout.getD epoch 0) :
    isEoutStopDecrease Eout epoch window = some false := by
  apply optBool_eq_false_of (stop_no_wrap_isSome hsz he hw)
  intro htrue
  have h := (stop_no_wrap_true_iff hsz he hw).1 htrue (epoch - j) (by omega) (by omega)
  have hidx : epoch - (epoch - j) = j := by omega
  rw [hidx] at h
  omega

/-- C7 (witness): the amended claim on the history `[9, 1, 2, 3]` at epoch 3 with window 3 and
`j = 1`. -/
theorem C7_isEoutStopDecrease_false_witness :
    isEoutStopDecrease [9, 1, 2, 3] 3 3 = some false :=
  C7_isEoutStopDecrease_false [9, 1, 2, 3] 3 3 (by norm_num) (by decide) (by decide)
    1 (by decide) (by decide) (by decide) (by decide)

/-- C8: given a non-increasing tail of length `window` (`window <= epoch + 1` and
`Eout[j] >= Eout[j + 1]` for every `j` with `epoch - window + 1 <= j < epoch`), the code
returns true. -/
theorem C8_isEoutStopDecrease_true (Eout : List Nat) (epoch window : Nat)
    (hsz : epoch < 2 ^ 64) (he : epoch < Eout.length) (hw : window ≤ epoch + 1)
    (hmono : ∀ j, epoch + 1 - window ≤ j → j < epoch →
      Eout.getD j 0 ≥ Eout.getD (j + 1) 0) :
    isEoutStopDecrease Eout epoch window = some true := by
  rw [stop_no_wrap_true_iff hsz he hw]
  intro i hi hie
  exact tail_min_of_nonincreasing Eout epoch (epoch + 1 - window) hmono i (epoch - i)
    (by omega) (by omega)

/-- C8 (witness): the claim on the history `[1, 7, 5, 5]` at epoch 3 with window 3. -/
theorem C8_isEoutStopDecrease_true_witness :
    isEoutStopDecrease [1, 7, 5, 5] 3 3 = some true :=
  C8_isEoutStopDecrease_true [1, 7, 5, 5] 3 3 (by norm_num) (by decide) (by decide)
    (by
      intro j h1 h2
      have hj : j = 1 ∨ j = 2 := by omega
      rcases hj with rfl | rfl <;> decide)

/-- C10: without wrap-around (`epoch < Eout.size()`, `window <= epoch + 1`) the code returns
true exactly when `Eout[epoch] <= Eout[k]` for every `k` with
`max(1, epoch - window + 1) <= k <= epoch`; the result does not depend on `Eout[0]` when
`epoch >= 1`; and for `window <= 1` the result is true. -/
theorem C10_isEoutStopDecrease_exact (Eout : List Nat) (epoch window : Nat)
    (hsz : epoch < 2 ^ 64) (he : epoch < Eout.length) (hw : window ≤ epoch + 1) :
    (isEoutStopDecrease Eout epoch window = some true ↔
      ∀ k, max 1 (epoch + 1 - window) ≤ k → k ≤ epoch →
        Eout.getD epoch 0 ≤ Eout.getD k 0) ∧
    (1 ≤ epoch → ∀ x,
      isEoutStopDecrease (Eout.set 0 x) epoch window = isEoutStopDecrease Eout epoch window) ∧
    (window ≤ 1 → isEoutStopDecrease Eout epoch window = some true) := by
  refine ⟨?_, ?_, ?_⟩
  · rw [stop_no_wrap_true_iff hsz he hw]
    constructor
    · intro h k hk1 hk2
      have hk1a : 1 ≤ k := le_trans (le_max_left _ _) hk1
      have hk1b : epoch + 1 - window ≤ k := le_trans (le_max_right _ _) hk1
      by_cases hke : k = epoch
      · subst hke; exact le_refl _
      · have := h (epoch - k) (by omega) (by omega)
        have hidx : epoch - (epoch - k) = k := by omega
        rwa [hidx] at this
    · intro h i hi hie
      exact h (epoch - i) (max_le (by omega) (by omega)) (by omega)
  · intro hpos x
    have he2 : epoch < (Eout.set 0 x).length := by simpa using he
    apply optBool_ext (stop_no_wrap_isSome hsz he2 hw) (stop_no_wrap_isSome hsz he hw)
    rw [stop_no_wrap_true_iff hsz he2 hw, stop_no_wrap_true_iff hsz he hw]
    have hget : ∀ k, 1 ≤ k → (Eout.set 0 x).getD k 0 = Eout.getD k 0 := by
      intro k hk
      simp [List.getD, List.getElem?_set, show ¬ (0 = k) by omega]
    constructor
    · intro h i hi hie
      have := h i hi hie
      rwa [hget epoch hpos, hget (epoch - i) (by omega)] at this
    · intro h i hi hie
      rw [hget epoch hpos, hget (epoch - i) (by omega)]
      exact h i hi hie
  · intro hw1
    rw [stop_no_wrap_true_iff hsz he hw]
    intro i hi hie
    have : i = 0 := by omega
    subst this
    exact le_refl _

/-- C10 (witness): the claim on the history `[0, 6, 4, 4]` at epoch 3 with window 3. -/
theorem C10_isEoutStopDecrease_exact_witness :
    (isEoutStopDecrease [0, 6, 4, 4] 3 3 = some true ↔
      ∀ k, max 1 (3 + 1 - 3) ≤ k → k ≤ 3 →
        [0, 6, 4, 4].getD 3 0 ≤ [0, 6, 4, 4].getD k 0) ∧
    (1 ≤ 3 → ∀ x,
      isEoutStopDecrease ([0, 6, 4, 4].set 0 x) 3 3 = isEoutStopDecrease [0, 6, 4, 4] 3 3) ∧
    (3 ≤ 1 → isEoutStopDecrease [0, 6, 4, 4] 3 3 = some true) :=
  C10_isEoutStopDecrease_exact [0, 6, 4, 4] 3 3 (by norm_num) (by decide) (by decide)

/-! ### The bias helpers -/

/-- A read inside the shape of a well-formed matrix succeeds. -/
theorem read_ok_of_wf {T : Type} (A : Matrix2D T) (hwf : A.WellFormed) {i j : Nat}
    (hi : i < A.rows) (hj : j < A.cols) : ∃ v, A.read i j = .ok v := by
  obtain ⟨hlen, hrows⟩ := hwf
  have hi2 : i < A.elems.length := by omega
  have hrow := hrows (A.elems[i]) (List.getElem_mem _)
  have hj2 : j < (A.elems[i]).length := by omega
  refine ⟨(A.elems[i])[j], ?_⟩
  simp [Matrix2D.read, hi, hj, List.getElem?_eq_getElem hi2, List.getElem?_eq_getElem hj2]

/-- Copying the columns of `l`, all inside `A`, from row `i` of `A` into a matrix `B` at least
as wide succeeds and keeps the shape of `B`. -/
theorem copy_row_ok {T : Type} (A : Matrix2D T) (hwf : A.WellFormed) (i : Nat)
    (hi : i < A.rows) (l : List Nat) (hl : ∀ j ∈ l, j < A.cols) (c : Nat) (hc : A.cols ≤ c) :
    ∀ B : Matrix2D T, B.rows = A.rows → B.cols = c →
      ∃ B2 : Matrix2D T, B2.rows = A.rows ∧ B2.cols = c ∧
        l.foldlM (fun (B : Matrix2D T) j => do
          let v ← A.read i j
          B.write i j v) B = .ok B2 := by
  induction l with
  | nil => intro B h1 h2; exact ⟨B, h1, h2, rfl⟩
  | cons j rest ih =>
    intro B h1 h2
    have hj := hl j (List.mem_cons_self _ _)
    obtain ⟨v, hv⟩ := read_ok_of_wf A hwf hi hj
    have hw : B.write i j v
        = .ok { B with elems := B.elems.modify (fun row => row.set j v) i } := by
      simp [Matrix2D.write, h1, h2, hi]
      omega
    obtain ⟨B2, h3, h4, h5⟩ := ih (fun k hk => hl k (List.mem_cons_of_mem _ hk))
      { B with elems := B.elems.modify (fun row => row.set j v) i } h1 h2
    refine ⟨B2, h3, h4, ?_⟩
    rw [List.foldlM_cons, hv]
    simp only [Except.bind, bind, hw]
    exact h5

/-- On every well-formed matrix with at least one row, the matrix overload of add_bias reads
`A[0][cols]`, one column past the end of row 0 of `A`. -/
theorem add_bias_faults {T : Type} [Zero T] [One T] (A : Matrix2D T) (hwf : A.WellFormed)
    (hrows : 0 < A.rows) (hcols : A.cols + 1 < 2 ^ 64) :
    add_bias A = .error (.readOutOfBounds 0 A.cols) := by
  unfold add_bias
  simp only [Matrix2D.create, Nat.mod_eq_of_lt hcols]
  obtain ⟨r, hr⟩ : ∃ r, A.rows = r + 1 := ⟨A.rows - 1, by omega⟩
  rw [hr, List.range_succ_eq_map, List.foldlM_cons, List.range_succ, List.foldlM_append]
  obtain ⟨B2, h3, h4, h5⟩ := copy_row_ok A hwf 0 hrows (List.range A.cols)
    (fun j hj => List.mem_range.1 hj) (A.cols + 1) (by omega)
    ⟨r + 1, A.cols + 1, List.replicate (r + 1) (List.replicate (A.cols + 1) 0)⟩ hr.symm rfl
  rw [h5]
  have hread : A.read 0 A.cols = .error (.readOutOfBounds 0 A.cols) := by
    simp [Matrix2D.read]
  simp [bind, Except.bind, hread]

/-- On a well-formed matrix without rows neither loop runs: add_bias followed by remove_bias
returns the matrix itself. -/
theorem round_trip_no_rows {T : Type} [Zero T] [One T] (A : Matrix2D T) (hwf : A.WellFormed)
    (hrows : A.rows = 0) (hcols : A.cols + 1 < 2 ^ 64) :
    (add_bias A).bind remove_bias = .ok A := by
  obtain ⟨r, c, e⟩ := A
  obtain ⟨hlen, -⟩ := hwf
  simp only at hrows hcols hlen
  subst hrows
  have he : e = [] := List.length_eq_zero.1 hlen
  subst he
  have h1 : (c + 1) % 2 ^ 64 = c + 1 := Nat.mod_eq_of_lt hcols
  have h2 : (c + 1 + (2 ^ 64 - 1)) % 2 ^ 64 = c := by
    have : c + 1 + (2 ^ 64 - 1) = c + 2 ^ 64 := by omega
    rw [this, Nat.add_mod_right, Nat.mod_eq_of_lt (by omega)]
  have ha : add_bias (⟨0, c, []⟩ : Matrix2D T) = .ok ⟨0, c + 1, []⟩ := by
    simp only [add_bias, Matrix2D.create, h1, List.range_zero, List.replicate_zero,
      List.foldlM_nil]
    rfl
  have hr : remove_bias (⟨0, c + 1, []⟩ : Matrix2D T) = .ok ⟨0, c, []⟩ := by
    simp only [remove_bias, Matrix2D.create, h2, List.range_zero, List.replicate_zero,
      List.foldlM_nil]
    rfl
  rw [ha]
  exact hr

/-- C3 (failing input, every matrix with a row): on a well-formed matrix with at least one row
the round trip has no defined result, because add_bias reads `A[0][cols]`, one column past the
end of row 0; only on a matrix without rows does the round trip return the matrix. -/
theorem C3_round_trip_faults {T : Type} [Zero T] [One T] (A : Matrix2D T)
    (hwf : A.WellFormed) (hcols : A.cols + 1 < 2 ^ 64) :
    (0 < A.rows → (add_bias A).bind remove_bias = .error (.readOutOfBounds 0 A.cols)) ∧
    (A.rows = 0 → (add_bias A).bind remove_bias = .ok A) := by
  refine ⟨?_, fun h0 => round_trip_no_rows A hwf h0 hcols⟩
  intro hrows
  rw [add_bias_faults A hwf hrows hcols]
  rfl

/-- C3 (witness): the round trip on the one by one matrix `[[7]]`. -/
theorem C3_round_trip_faults_witness :
    (0 < oneByOne.rows →
      (add_bias oneByOne).bind remove_bias = .error (.readOutOfBounds 0 oneByOne.cols)) ∧
    (oneByOne.rows = 0 → (add_bias oneByOne).bind remove_bias = .ok oneByOne) :=
  C3_round_trip_faults oneByOne
    ⟨rfl, by intro row h; simp [oneByOne] at h; subst h; rfl⟩ (by norm_num [oneByOne])

/-- C4 (failing input, every matrix with a row): on a well-formed matrix with at least one row
add_bias does not return: its copy loop runs `j` up to the column count of `B`, which is one
more than that of `A`, and reads `A[0][cols]` out of bounds; and the write of the bias at
column `B.getCols()` is outside every matrix `B`. -/
theorem C4_add_bias_out_of_bounds {T : Type} [Zero T] [One T] (A : Matrix2D T)
    (hwf : A.WellFormed) (hrows : 0 < A.rows) (hcols : A.cols + 1 < 2 ^ 64) :
    add_bias A = .error (.readOutOfBounds 0 A.cols) ∧
    A.read 0 A.cols = .error (.readOutOfBounds 0 A.cols) ∧
    ∀ (B : Matrix2D T) (i : Nat),
      B.write i B.cols 1 = .error (.writeOutOfBounds i B.cols) := by
  refine ⟨add_bias_faults A hwf hrows hcols, by simp [Matrix2D.read], ?_⟩
  intro B i
  simp [Matrix2D.write]

/-- C4 (witness): add_bias on the one by one matrix `[[7]]`. -/
theorem C4_add_bias_out_of_bounds_witness :
    add_bias oneByOne = .error (.readOutOfBounds 0 oneByOne.cols) ∧
    oneByOne.read 0 oneByOne.cols = .error (.readOutOfBounds 0 oneByOne.cols) ∧
    ∀ (B : Matrix2D Int) (i : Nat),
      B.write i B.cols 1 = .error (.writeOutOfBounds i B.cols) :=
  C4_add_bias_out_of_bounds oneByOne
    ⟨rfl, by intro row h; simp [oneByOne] at h; subst h; rfl⟩ (by decide)
    (by norm_num [oneByOne])

/-! ### The epoch loop -/

section Loop

variable {W F : Type} (ops : TrainOps W F) (nTrain nValid batchSize : Nat)

/-- The entry just appended is at the index given by the old length. -/
theorem getElem?_concat_length (l : List Nat) (v : Nat) {k : Nat} (hk : l.length = k) :
    (l ++ [v])[k]? = some v := by
  subst hk
  simp

/-- The four ways through the body from a state whose history has one entry per past epoch. -/
theorem epochBody_cases (s : TrainState W F) (hlen : s.Eout.length = s.epoch) :
    let m := epochEval ops nTrain batchSize s
    let Eout := s.Eout ++ [m.EoutNew]
    let tr1 := s.trace ++
      [.epochStart s.epoch, .evalTrain s.epoch m.Ein, .pushBack s.epoch m.EoutNew]
    let tr2 := tr1 ++ [.readEout s.epoch m.EoutNew, .readEout s.epoch m.EoutNew]
    let validOk := ops.lt (ops.getConfig m.world).minValidAccuracy
      (ops.accuracy m.EoutNew nValid)
    let stop := isEoutStopDecrease Eout s.epoch (ops.getConfig m.world).nNonIncEpoch
    (ops.lt m.trainAcc ops.zero = true ∧
      epochBody ops nTrain nValid batchSize s =
        .next ⟨m.world, m.Ein, Eout, s.epoch, tr1 ++ [.continueEpoch s.epoch]⟩) ∨
    (ops.lt m.trainAcc ops.zero = false ∧ (validOk = false ∨ stop = some false) ∧
      epochBody ops nTrain nValid batchSize s =
        .next ⟨ops.adjustLearningRate m.trainAcc m.world, m.Ein, Eout, s.epoch,
          tr2 ++ [.decision s.epoch false, .adjustLearningRate s.epoch m.trainAcc]⟩) ∨
    (ops.lt m.trainAcc ops.zero = false ∧ validOk = true ∧ stop = some true ∧
      epochBody ops nTrain nValid batchSize s =
        .brk ⟨m.world, m.Ein, Eout, s.epoch, tr2 ++ [.decision s.epoch true]⟩) ∨
    (ops.lt m.trainAcc ops.zero = false ∧ validOk = true ∧ stop = none ∧
      epochBody ops nTrain nValid batchSize s =
        .fault ⟨m.world, m.Ein, Eout, s.epoch, tr2⟩) := by
  intro m Eout tr1 tr2 validOk stop
  have hread : (s.Eout ++ [(epochEval ops nTrain batchSize s).EoutNew])[s.epoch]?
      = some (epochEval ops nTrain batchSize s).EoutNew :=
    getElem?_concat_length s.Eout _ hlen
  simp only [m, Eout, tr1, tr2, validOk, stop]
  by_cases hneg : ops.lt (epochEval ops nTrain batchSize s).trainAcc ops.zero = true
  · left
    refine ⟨hneg, ?_⟩
    simp only [epochBody]
    rw [if_pos hneg]
  · right
    have hneg2 : ops.lt (epochEval ops nTrain batchSize s).trainAcc ops.zero = false := by
      simpa using hneg
    by_cases hv : ops.lt (ops.getConfig (epochEval ops nTrain batchSize s).world).minValidAccuracy
        (ops.accuracy (epochEval ops nTrain batchSize s).EoutNew nValid) = true
    · cases hs : isEoutStopDecrease (s.Eout ++ [(epochEval ops nTrain batchSize s).EoutNew])
          s.epoch (ops.getConfig (epochEval ops nTrain batchSize s).world).nNonIncEpoch with
      | none =>
        right; right
        refine ⟨hneg2, hv, rfl, ?_⟩
        simp only [epochBody]
        rw [if_neg hneg, hread]
        simp only []
        rw [if_pos hv, hs]
      | some b =>
        cases b with
        | true =>
          right; left
          refine ⟨hneg2, hv, rfl, ?_⟩
          simp only [epochBody]
          rw [if_neg hneg, hread]
          simp only []
          rw [if_pos hv, hs]
        | false =>
          left
          refine ⟨hneg2, Or.inr rfl, ?_⟩
          simp only [epochBody]
          rw [if_neg hneg, hread]
          simp only []
          rw [if_pos hv, hs]
    · left
      have hv2 : ops.lt (ops.getConfig (epochEval ops nTrain batchSize s).world).minValidAccuracy
          (ops.accuracy (epochEval ops nTrain batchSize s).EoutNew nValid) = false := by
        simpa using hv
      refine ⟨hneg2, Or.inl hv2, ?_⟩
      simp only [epochBody]
      rw [if_neg hneg, hread]
      simp only []
      rw [if_neg hv]

/-- The invariant holds on entry to the loop. -/
theorem traceInv_init : TraceInv ops nTrain 0 0 [] ([] : List (Event F)) where
  len := rfl
  started := rfl
  calls := rfl
  pushed := by intro e v h; simp at h
  reads := by intro e v h; simp at h
  order := by intro p e acc h; simp at h

/-- The invariant is kept when one epoch appends its count and its block of events. -/
theorem traceInv_append {k c eo : Nat} {Eout : List Nat} {tr blk : List (Event F)}
    (h : TraceInv ops nTrain k 0 Eout tr) (hb : BlockOk ops nTrain k eo c blk) :
    TraceInv ops nTrain (k + 1) c (Eout ++ [eo]) (tr ++ blk) where
  len := by simp [h.len]
  started := by
    have h1 := h.started
    have h2 := hb.started
    simp only [epochsExecuted, List.countP_append] at *
    omega
  calls := by
    have h1 := h.calls
    have h2 := hb.calls
    simp only [adjustCalls, continueCount, List.countP_append] at *
    omega
  pushed := by
    intro e v hmem
    rcases List.mem_append.1 hmem with h1 | h1
    · have h2 := h.pushed e v h1
      have hlt : e < Eout.length := by
        by_contra hge
        rw [List.getElem?_eq_none (by omega)] at h2
        exact absurd h2 (by simp)
      rw [List.getElem?_append_left hlt]
      exact h2
    · obtain ⟨rfl, rfl⟩ := hb.pushed e v h1
      exact getElem?_concat_length Eout _ h.len
  reads := by
    intro idx v hmem
    rcases List.mem_append.1 hmem with h1 | h1
    · exact List.mem_append_left _ (h.reads idx v h1)
    · obtain ⟨rfl, rfl⟩ := hb.reads idx v h1
      exact List.mem_append_right _ hb.pushedIn
  order := by
    intro p e acc hp
    by_cases hlt : p < tr.length
    · rw [List.getElem?_append_left hlt] at hp
      obtain ⟨q, ein, hq, hdec, hev, hacc⟩ := h.order p e acc hp
      refine ⟨q, ein, hq, ?_, List.mem_append_left _ hev, hacc⟩
      rw [List.getElem?_append_left (by omega)]
      exact hdec
    · rw [List.getElem?_append_right (by omega)] at hp
      obtain ⟨q, ein, hq, hdec, hev, hacc⟩ := hb.order (p - tr.length) e acc hp
      refine ⟨q + tr.length, ein, by omega, ?_, List.mem_append_right _ hev, hacc⟩
      rw [List.getElem?_append_right (by omega)]
      simpa using hdec

/-- The events of an epoch that takes `continue`. -/
theorem blockOk_continue (k ein eo : Nat) :
    BlockOk ops nTrain k eo 0
      [Event.epochStart k, Event.evalTrain k ein, Event.pushBack k eo,
        Event.continueEpoch k] where
  started := by simp [epochsExecuted]
  calls := by simp [adjustCalls, continueCount]
  pushed := by intro e v h; simpa using h
  pushedIn := by simp
  reads := by intro e v h; simp at h
  order := by
    intro p e acc h
    rcases p with _ | _ | _ | _ | p <;> simp at h

/-- The events of an epoch that ends with the call of `adjustLearningRate`. -/
theorem blockOk_adjust (k ein eo : Nat) :
    BlockOk ops nTrain k eo 0
      [Event.epochStart k, Event.evalTrain k ein, Event.pushBack k eo, Event.readEout k eo,
        Event.readEout k eo, Event.decision k false,
        Event.adjustLearningRate k (ops.accuracy ein nTrain)] where
  started := by simp [epochsExecuted]
  calls := by simp [adjustCalls, continueCount]
  pushed := by intro e v h; simpa using h
  pushedIn := by simp
  reads := by intro e v h; simpa using h
  order := by
    intro p e acc h
    rcases p with _ | _ | _ | _ | _ | _ | _ | p <;> simp at h
    obtain ⟨rfl, rfl⟩ := h
    exact ⟨5, ein, rfl, by simp, by simp, rfl⟩

/-- The events of an epoch that leaves by `break`. -/
theorem blockOk_break (k ein eo : Nat) :
    BlockOk ops nTrain k eo 1
      [Event.epochStart k, Event.evalTrain k ein, Event.pushBack k eo, Event.readEout k eo,
        Event.readEout k eo, Event.decision k true] where
  started := by simp [epochsExecuted]
  calls := by simp [adjustCalls, continueCount]
  pushed := by intro e v h; simpa using h
  pushedIn := by simp
  reads := by intro e v h; simpa using h
  order := by
    intro p e acc h
    rcases p with _ | _ | _ | _ | _ | _ | p <;> simp at h

/-- The events of an epoch whose stopping test reads out of bounds. -/
theorem blockOk_fault (k ein eo : Nat) :
    BlockOk ops nTrain k eo 1
      [Event.epochStart k, Event.evalTrain k ein, Event.pushBack k eo, Event.readEout k eo,
        Event.readEout k eo] where
  started := by simp [epochsExecuted]
  calls := by simp [adjustCalls, continueCount]
  pushed := by intro e v h; simpa using h
  pushedIn := by simp
  reads := by intro e v h; simpa using h
  order := by
    intro p e acc h
    rcases p with _ | _ | _ | _ | _ | p <;> simp at h

/-- Every exit of the body from a loop-head state: the history has grown by the value just
evaluated, the events are as the invariant says, and the exit taken is decided by
`convergesAt` and `stopTestFaults`. -/
theorem epochBody_exit (s : TrainState W F)
    (h : TraceInv ops nTrain s.epoch 0 s.Eout s.trace) :
    (∀ s1, epochBody ops nTrain nValid batchSize s = .next s1 →
      s1.epoch = s.epoch ∧ s1.Eout = s.Eout ++ [(epochEval ops nTrain batchSize s).EoutNew] ∧
      TraceInv ops nTrain (s.epoch + 1) 0 s1.Eout s1.trace ∧
      ¬ convergesAt ops nTrain nValid batchSize s ∧
      ¬ stopTestFaults ops nTrain nValid batchSize s) ∧
    (∀ s1, epochBody ops nTrain nValid batchSize s = .brk s1 →
      s1.epoch = s.epoch ∧ s1.Eout = s.Eout ++ [(epochEval ops nTrain batchSize s).EoutNew] ∧
      TraceInv ops nTrain (s.epoch + 1) 1 s1.Eout s1.trace ∧
      convergesAt ops nTrain nValid batchSize s) ∧
    (∀ s1, epochBody ops nTrain nValid batchSize s = .fault s1 →
      s1.epoch = s.epoch ∧ s1.Eout = s.Eout ++ [(epochEval ops nTrain batchSize s).EoutNew] ∧
      TraceInv ops nTrain (s.epoch + 1) 1 s1.Eout s1.trace ∧
      stopTestFaults ops nTrain nValid batchSize s) := by
  have hc := epochBody_cases ops nTrain nValid batchSize s h.len
  dsimp only at hc
  rcases hc with ⟨hneg, hb⟩ | ⟨hneg, hor, hb⟩ | ⟨hneg, hv, hs, hb⟩ | ⟨hneg, hv, hs, hb⟩
  · rw [hb]
    refine ⟨?_, (fun _ he => by cases he), (fun _ he => by cases he)⟩
    intro s1 he
    cases he
    refine ⟨rfl, rfl, ?_, ?_, ?_⟩
    · have := traceInv_append ops nTrain h
        (blockOk_continue ops nTrain s.epoch (epochEval ops nTrain batchSize s).Ein
          (epochEval ops nTrain batchSize s).EoutNew)
      simpa using this
    · intro hcv
      have := hcv.1
      rw [hneg] at this
      cases this
    · intro hcv
      have := hcv.1
      rw [hneg] at this
      cases this
  · rw [hb]
    refine ⟨?_, (fun _ he => by cases he), (fun _ he => by cases he)⟩
    intro s1 he
    cases he
    refine ⟨rfl, rfl, ?_, ?_, ?_⟩
    · have := traceInv_append ops nTrain h
        (blockOk_adjust ops nTrain s.epoch (epochEval ops nTrain batchSize s).Ein
          (epochEval ops nTrain batchSize s).EoutNew)
      simpa [epochEval] using this
    · intro hcv
      rcases hor with hv | hs
      · have := hcv.2.1
        rw [hv] at this
        cases this
      · have := hcv.2.2
        rw [hs] at this
        cases this
    · intro hcv
      rcases hor with hv | hs
      · have := hcv.2.1
        rw [hv] at this
        cases this
      · have := hcv.2.2
        rw [hs] at this
        cases this
  · rw [hb]
    refine ⟨(fun _ he => by cases he), ?_, (fun _ he => by cases he)⟩
    intro s1 he
    cases he
    refine ⟨rfl, rfl, ?_, hneg, hv, hs⟩
    have := traceInv_append ops nTrain h
      (blockOk_break ops nTrain s.epoch (epochEval ops nTrain batchSize s).Ein
        (epochEval ops nTrain batchSize s).EoutNew)
    simpa using this
  · rw [hb]
    refine ⟨(fun _ he => by cases he), (fun _ he => by cases he), ?_⟩
    intro s1 he
    cases he
    refine ⟨rfl, rfl, ?_, hneg, hv, hs⟩
    have := traceInv_append ops nTrain h
      (blockOk_fault ops nTrain s.epoch (epochEval ops nTrain batchSize s).Ein
        (epochEval ops nTrain batchSize s).EoutNew)
    simpa using this

/-- Reaching the head of epoch `a + b` is reaching the head of epoch `a` and then `b` more. -/
theorem headState_add (a b : Nat) (s : TrainState W F) :
    headState ops nTrain nValid batchSize (a + b) s =
      (headState ops nTrain nValid batchSize a s).bind
        (fun t => headState ops nTrain nValid batchSize b t) := by
  induction a generalizing s with
  | zero => simp [headState]
  | succ a ih =>
    have : a + 1 + b = (a + b) + 1 := by omega
    rw [this, headState, headState]
    cases hb : epochBody ops nTrain nValid batchSize s with
    | next s1 => simp only []; exact ih _
    | brk s1 => rfl
    | fault s1 => rfl

/-- Every head state reached from a head state is `k` epochs later, satisfies the invariant and
has kept the earlier entries of the history. -/
theorem headState_inv (k : Nat) : ∀ (s sk : TrainState W F),
    TraceInv ops nTrain s.epoch 0 s.Eout s.trace →
    headState ops nTrain nValid batchSize k s = some sk →
    sk.epoch = s.epoch + k ∧ TraceInv ops nTrain sk.epoch 0 sk.Eout sk.trace ∧
      (∀ i, i < s.Eout.length → sk.Eout[i]? = s.Eout[i]?) := by
  induction k with
  | zero =>
    intro s sk h hk
    simp only [headState, Option.some.injEq] at hk
    subst hk
    exact ⟨rfl, h, fun _ _ => rfl⟩
  | succ k ih =>
    intro s sk h hk
    rw [headState] at hk
    cases hb : epochBody ops nTrain nValid batchSize s with
    | next s1 =>
      rw [hb] at hk
      simp only [] at hk
      obtain ⟨he, hE, hinv, -, -⟩ := (epochBody_exit ops nTrain nValid batchSize s h).1 s1 hb
      have hinv2 : TraceInv ops nTrain ({ s1 with epoch := s1.epoch + 1 } : TrainState W F).epoch 0
          ({ s1 with epoch := s1.epoch + 1 } : TrainState W F).Eout
          ({ s1 with epoch := s1.epoch + 1 } : TrainState W F).trace := by
        simpa [he] using hinv
      obtain ⟨h1, h2, h3⟩ := ih _ sk hinv2 hk
      refine ⟨?_, h2, ?_⟩
      · simp only [] at h1
        omega
      · intro i hi
        have := h3 i (by simp only [hE, List.length_append]; omega)
        rw [this]
        simp only [hE]
        exact List.getElem?_append_left hi
    | brk s1 => rw [hb] at hk; cases hk
    | fault s1 => rw [hb] at hk; cases hk

/-- If the loop reaches the head of a later epoch, the body at each earlier head ended at
`++epoch`. -/
theorem headState_earlier {k e : Nat} {s sk se : TrainState W F} (hlt : k < e)
    (hk : headState ops nTrain nValid batchSize k s = some sk)
    (he : headState ops nTrain nValid batchSize e s = some se) :
    ∃ s1, epochBody ops nTrain nValid batchSize sk = .next s1 := by
  have hsplit : e = k + ((e - k - 1) + 1) := by omega
  rw [hsplit, headState_add, hk] at he
  simp only [Option.some_bind] at he
  rw [headState] at he
  cases hb : epochBody ops nTrain nValid batchSize sk with
  | next s1 => exact ⟨s1, rfl⟩
  | brk s1 => rw [hb] at he; cases he
  | fault s1 => rw [hb] at he; cases he

/-- An earlier head exists whenever a later one does. -/
theorem headState_split {k e : Nat} {s se : TrainState W F} (hle : k ≤ e)
    (he : headState ops nTrain nValid batchSize e s = some se) :
    ∃ sk, headState ops nTrain nValid batchSize k s = some sk ∧
      headState ops nTrain nValid batchSize (e - k) sk = some se := by
  have hsplit : e = k + (e - k) := by omega
  rw [hsplit, headState_add] at he
  cases hk : headState ops nTrain nValid batchSize k s with
  | none => rw [hk] at he; cases he
  | some sk =>
    rw [hk] at he
    exact ⟨sk, rfl, by simpa using he⟩

/-- The loop, given enough fuel, runs to the first head state at which the loop test fails or
the body leaves by `break` or by a fault. -/
theorem trainLoop_spec (M : Nat) : ∀ (fuel : Nat) (s : TrainState W F),
    TraceInv ops nTrain s.epoch 0 s.Eout s.trace → s.epoch ≤ M → M - s.epoch < fuel →
    ∃ k sk, headState ops nTrain nValid batchSize k s = some sk ∧ s.epoch + k ≤ M ∧
      ((s.epoch + k = M ∧
          trainLoop ops nTrain nValid batchSize M fuel s = ⟨.maxEpochReached, sk⟩) ∨
       (s.epoch + k < M ∧ ∃ s1, epochBody ops nTrain nValid batchSize sk = .brk s1 ∧
          trainLoop ops nTrain nValid batchSize M fuel s = ⟨.converged, s1⟩) ∨
       (s.epoch + k < M ∧ ∃ s1, epochBody ops nTrain nValid batchSize sk = .fault s1 ∧
          trainLoop ops nTrain nValid batchSize M fuel s = ⟨.fault, s1⟩)) := by
  intro fuel
  induction fuel with
  | zero => intro s _ _ hf; omega
  | succ fuel ih =>
    intro s hinv hle hf
    rw [trainLoop]
    by_cases hlt : s.epoch < M
    · rw [if_pos hlt]
      cases hb : epochBody ops nTrain nValid batchSize s with
      | next s1 =>
        simp only []
        obtain ⟨he, hE, hinv1, -, -⟩ := (epochBody_exit ops nTrain nValid batchSize s hinv).1 s1 hb
        have hinv2 : TraceInv ops nTrain
            ({ s1 with epoch := s1.epoch + 1 } : TrainState W F).epoch 0
            ({ s1 with epoch := s1.epoch + 1 } : TrainState W F).Eout
            ({ s1 with epoch := s1.epoch + 1 } : TrainState W F).trace := by
          simpa [he] using hinv1
        obtain ⟨k, sk, hk, hkM, hcases⟩ := ih { s1 with epoch := s1.epoch + 1 } hinv2
          (by simp only []; omega) (by simp only []; omega)
        simp only [] at hkM hcases
        refine ⟨k + 1, sk, ?_, by omega, ?_⟩
        · rw [headState, hb]
          exact hk
        · rcases hcases with ⟨h1, h2⟩ | ⟨h1, h2⟩ | ⟨h1, h2⟩
          · exact Or.inl ⟨by omega, h2⟩
          · exact Or.inr (Or.inl ⟨by omega, h2⟩)
          · exact Or.inr (Or.inr ⟨by omega, h2⟩)
      | brk s1 =>
        exact ⟨0, s, rfl, by omega, Or.inr (Or.inl ⟨by omega, s1, hb, rfl⟩)⟩
      | fault s1 =>
        exact ⟨0, s, rfl, by omega, Or.inr (Or.inr ⟨by omega, s1, hb, rfl⟩)⟩
    · rw [if_neg hlt]
      exact ⟨0, s, rfl, by omega, Or.inl ⟨by omega, rfl⟩⟩

/-- The state any exit of the body carries, from a loop-head state. -/
theorem epochBody_state (s : TrainState W F)
    (h : TraceInv ops nTrain s.epoch 0 s.Eout s.trace) :
    (epochBody ops nTrain nValid batchSize s).state.epoch = s.epoch ∧
    (epochBody ops nTrain nValid batchSize s).state.Eout =
      s.Eout ++ [(epochEval ops nTrain batchSize s).EoutNew] ∧
    ∃ c blk, (epochBody ops nTrain nValid batchSize s).state.trace = s.trace ++ blk ∧
      BlockOk ops nTrain s.epoch (epochEval ops nTrain batchSize s).EoutNew c blk := by
  have hc := epochBody_cases ops nTrain nValid batchSize s h.len
  dsimp only at hc
  rcases hc with ⟨-, hb⟩ | ⟨-, -, hb⟩ | ⟨-, -, -, hb⟩ | ⟨-, -, -, hb⟩
  · rw [hb]
    refine ⟨rfl, rfl, 0, _, ?_, blockOk_continue ops nTrain s.epoch
      (epochEval ops nTrain batchSize s).Ein (epochEval ops nTrain batchSize s).EoutNew⟩
    simp [BodyExit.state, epochEval]
  · rw [hb]
    refine ⟨rfl, rfl, 0, _, ?_, blockOk_adjust ops nTrain s.epoch
      (epochEval ops nTrain batchSize s).Ein (epochEval ops nTrain batchSize s).EoutNew⟩
    simp [BodyExit.state, epochEval]
  · rw [hb]
    refine ⟨rfl, rfl, 1, _, ?_, blockOk_break ops nTrain s.epoch
      (epochEval ops nTrain batchSize s).Ein (epochEval ops nTrain batchSize s).EoutNew⟩
    simp [BodyExit.state, epochEval]
  · rw [hb]
    refine ⟨rfl, rfl, 1, _, ?_, blockOk_fault ops nTrain s.epoch
      (epochEval ops nTrain batchSize s).Ein (epochEval ops nTrain batchSize s).EoutNew⟩
    simp [BodyExit.state, epochEval]

end Loop

/-- The run of `dnn_train`, given enough fuel, in terms of the loop-head states. -/
theorem dnn_train_spec {W F : Type} (ops : TrainOps W F) (w0 : W) (batchSize fuel : Nat)
    (hfuel : (ops.getConfig w0).maxEpoch < fuel) :
    ∃ k sk, headState ops (ops.trainSize w0) (ops.validSize w0) batchSize k (initState w0)
        = some sk ∧
      k ≤ (ops.getConfig w0).maxEpoch ∧ sk.epoch = k ∧
      TraceInv ops (ops.trainSize w0) k 0 sk.Eout sk.trace ∧
      ((k = (ops.getConfig w0).maxEpoch ∧
          dnn_train ops w0 batchSize fuel = ⟨.maxEpochReached, sk⟩) ∨
       (k < (ops.getConfig w0).maxEpoch ∧
          ∃ s1, epochBody ops (ops.trainSize w0) (ops.validSize w0) batchSize sk = .brk s1 ∧
            dnn_train ops w0 batchSize fuel = ⟨.converged, s1⟩) ∨
       (k < (ops.getConfig w0).maxEpoch ∧
          ∃ s1, epochBody ops (ops.trainSize w0) (ops.validSize w0) batchSize sk = .fault s1 ∧
            dnn_train ops w0 batchSize fuel = ⟨.fault, s1⟩)) := by
  have hinit : TraceInv ops (ops.trainSize w0) (initState w0 : TrainState W F).epoch 0
      (initState w0 : TrainState W F).Eout (initState w0 : TrainState W F).trace :=
    traceInv_init ops (ops.trainSize w0)
  obtain ⟨k, sk, hk, hkM, hcases⟩ := trainLoop_spec ops (ops.trainSize w0) (ops.validSize w0)
    batchSize (ops.getConfig w0).maxEpoch fuel (initState w0) hinit (Nat.zero_le _)
    (by simp only [initState]; omega)
  obtain ⟨he, hinv, -⟩ := headState_inv ops (ops.trainSize w0) (ops.validSize w0) batchSize k
    (initState w0) sk hinit hk
  have he2 : sk.epoch = k := by simpa [initState] using he
  have h0 : (initState w0 : TrainState W F).epoch = 0 := rfl
  rw [h0] at hkM hcases
  simp only [Nat.zero_add] at hkM hcases
  refine ⟨k, sk, hk, hkM, he2, by rw [← he2]; exact hinv, ?_⟩
  exact hcases


section Claims

variable {W F : Type} (ops : TrainOps W F) (nTrain nValid batchSize : Nat)

/-- A head state followed by a later head state did not meet the break condition and its
stopping test did not fault. -/
theorem head_not_converged {e k : Nat} {s0 s sk : TrainState W F}
    (h0 : TraceInv ops nTrain s0.epoch 0 s0.Eout s0.trace) (hlt : e < k)
    (he : headState ops nTrain nValid batchSize e s0 = some s)
    (hk : headState ops nTrain nValid batchSize k s0 = some sk) :
    ¬ convergesAt ops nTrain nValid batchSize s ∧
    ¬ stopTestFaults ops nTrain nValid batchSize s := by
  obtain ⟨-, hinv, -⟩ := headState_inv ops nTrain nValid batchSize e s0 s h0 he
  obtain ⟨s1, hb⟩ := headState_earlier ops nTrain nValid batchSize hlt he hk
  obtain ⟨-, -, -, h1, h2⟩ := (epochBody_exit ops nTrain nValid batchSize s hinv).1 s1 hb
  exact ⟨h1, h2⟩

end Claims

/-- C5 (amended): given enough fuel the loop ends, after at most `maxEpoch` epochs.  It leaves
by `break` in epoch `e` exactly when `e < maxEpoch`, the loop reaches the head of epoch `e`, and
there `trainAcc < 0` is false, `validAcc > minValidAccuracy` and the stopping predicate returns
true; `e` is then the first such epoch and `e + 1` epochs were executed.  If no epoch the loop
reaches meets that condition and no stopping test reads out of bounds, exactly `maxEpoch`
epochs are executed and the loop ends by its bound. -/
theorem C5_dnn_train_exit {W F : Type} (ops : TrainOps W F) (w0 : W) (batchSize fuel : Nat)
    (hfuel : (ops.getConfig w0).maxEpoch < fuel) :
    (dnn_train ops w0 batchSize fuel).outcome ≠ Outcome.outOfFuel ∧
    epochsExecuted (dnn_train ops w0 batchSize fuel).state.trace
      ≤ (ops.getConfig w0).maxEpoch ∧
    (∀ e, ((dnn_train ops w0 batchSize fuel).outcome = Outcome.converged ∧
          (dnn_train ops w0 batchSize fuel).state.epoch = e) ↔
        (e < (ops.getConfig w0).maxEpoch ∧
          ∃ s, headState ops (ops.trainSize w0) (ops.validSize w0) batchSize e (initState w0)
              = some s ∧
            convergesAt ops (ops.trainSize w0) (ops.validSize w0) batchSize s)) ∧
    (∀ e, (dnn_train ops w0 batchSize fuel).outcome = Outcome.converged →
        (dnn_train ops w0 batchSize fuel).state.epoch = e →
        epochsExecuted (dnn_train ops w0 batchSize fuel).state.trace = e + 1 ∧
        ∀ k, k < e →
          ∃ s, headState ops (ops.trainSize w0) (ops.validSize w0) batchSize k (initState w0)
              = some s ∧
            ¬ convergesAt ops (ops.trainSize w0) (ops.validSize w0) batchSize s) ∧
    ((∀ e s, e < (ops.getConfig w0).maxEpoch →
        headState ops (ops.trainSize w0) (ops.validSize w0) batchSize e (initState w0)
          = some s →
        ¬ convergesAt ops (ops.trainSize w0) (ops.validSize w0) batchSize s ∧
        ¬ stopTestFaults ops (ops.trainSize w0) (ops.validSize w0) batchSize s) →
      (dnn_train ops w0 batchSize fuel).outcome = Outcome.maxEpochReached ∧
      epochsExecuted (dnn_train ops w0 batchSize fuel).state.trace
        = (ops.getConfig w0).maxEpoch) := by
  have hinit : TraceInv ops (ops.trainSize w0) (initState w0 : TrainState W F).epoch 0
      (initState w0 : TrainState W F).Eout (initState w0 : TrainState W F).trace :=
    traceInv_init ops (ops.trainSize w0)
  obtain ⟨k, sk, hk, hkM, hek, hinv, hcases⟩ := dnn_train_spec ops w0 batchSize fuel hfuel
  have hinvk : TraceInv ops (ops.trainSize w0) sk.epoch 0 sk.Eout sk.trace := by
    rw [hek]; exact hinv
  -- the break condition cannot hold at a head other than the last one reached
  have hother : ∀ e s, e < (ops.getConfig w0).maxEpoch →
      headState ops (ops.trainSize w0) (ops.validSize w0) batchSize e (initState w0) = some s →
      convergesAt ops (ops.trainSize w0) (ops.validSize w0) batchSize s →
      (∀ s1, epochBody ops (ops.trainSize w0) (ops.validSize w0) batchSize sk
        ≠ BodyExit.next s1) → k < (ops.getConfig w0).maxEpoch → e = k := by
    intro e s heM he hconv hnonext _
    rcases Nat.lt_trichotomy e k with hlt | heq | hgt
    · exact absurd hconv
        (head_not_converged ops (ops.trainSize w0) (ops.validSize w0) batchSize hinit hlt he hk).1
    · exact heq
    · obtain ⟨s1, hb⟩ := headState_earlier ops (ops.trainSize w0) (ops.validSize w0) batchSize
        hgt hk he
      exact absurd hb (hnonext s1)
  rcases hcases with ⟨hkeq, hr⟩ | ⟨hklt, s1, hb, hr⟩ | ⟨hklt, s1, hb, hr⟩
  · -- the loop test fails at the head of epoch `maxEpoch`
    rw [hr]
    refine ⟨by simp, ?_, ?_, ?_, ?_⟩
    · simp only []; rw [hinv.started]; exact hkM
    · intro e
      constructor
      · rintro ⟨h, -⟩; cases h
      · rintro ⟨heM, s, he, hconv⟩
        exact absurd hconv
          (head_not_converged ops (ops.trainSize w0) (ops.validSize w0) batchSize hinit
            (by omega) he hk).1
    · intro e h; cases h
    · intro _
      exact ⟨rfl, by simp only []; rw [hinv.started]; exact hkeq⟩
  · -- the body at the head of epoch `k` leaves by `break`
    obtain ⟨he1, -, hinv1, hconv⟩ :=
      (epochBody_exit ops (ops.trainSize w0) (ops.validSize w0) batchSize sk hinvk).2.1 s1 hb
    rw [hek] at he1 hinv1
    rw [hr]
    refine ⟨by simp, ?_, ?_, ?_, ?_⟩
    · simp only []; rw [hinv1.started]; omega
    · intro e
      constructor
      · rintro ⟨-, h⟩
        simp only [] at h
        rw [he1] at h
        subst h
        exact ⟨hklt, sk, hk, hconv⟩
      · rintro ⟨heM, s, he, hc⟩
        have := hother e s heM he hc (by intro s2 h2; rw [hb] at h2; cases h2) hklt
        exact ⟨rfl, by simp only []; rw [he1, this]⟩
    · intro e _ h
      simp only [] at h
      rw [he1] at h
      subst h
      refine ⟨by simp only []; rw [hinv1.started], ?_⟩
      intro j hj
      obtain ⟨sj, hsj, -⟩ := headState_split ops (ops.trainSize w0) (ops.validSize w0) batchSize
        (Nat.le_of_lt hj) hk
      exact ⟨sj, hsj,
        (head_not_converged ops (ops.trainSize w0) (ops.validSize w0) batchSize hinit hj hsj hk).1⟩
    · intro hno
      exact absurd hconv (hno k sk hklt hk).1
  · -- the stopping test at the head of epoch `k` reads out of bounds
    obtain ⟨he1, -, hinv1, hfault⟩ :=
      (epochBody_exit ops (ops.trainSize w0) (ops.validSize w0) batchSize sk hinvk).2.2 s1 hb
    rw [hek] at he1 hinv1
    rw [hr]
    refine ⟨by simp, ?_, ?_, ?_, ?_⟩
    · simp only []; rw [hinv1.started]; omega
    · intro e
      constructor
      · rintro ⟨h, -⟩; cases h
      · rintro ⟨heM, s, he, hc⟩
        have := hother e s heM he hc (by intro s2 h2; rw [hb] at h2; cases h2) hklt
        subst this
        rw [hk] at he
        cases he
        have h1 := hc.2.2
        have h2 := hfault.2.2
        rw [h1] at h2
        cases h2
    · intro e h; cases h
    · intro hno
      exact absurd hfault (hno k sk hklt hk).2

/-- C6 (amended): `adjustLearningRate` is called only after the convergence decision of its
epoch has been taken and was negative, with that epoch's training accuracy; an epoch that
takes the `continue` path or converges makes no call.  A run that ends by the epoch bound makes
as many calls as it executed epochs less those that took `continue`; a run that converges makes
one call fewer. -/
theorem C6_adjust_calls {W F : Type} (ops : TrainOps W F) (w0 : W) (batchSize fuel : Nat)
    (hfuel : (ops.getConfig w0).maxEpoch < fuel) :
    ((dnn_train ops w0 batchSize fuel).outcome = Outcome.maxEpochReached →
      adjustCalls (dnn_train ops w0 batchSize fuel).state.trace
          + continueCount (dnn_train ops w0 batchSize fuel).state.trace
        = epochsExecuted (dnn_train ops w0 batchSize fuel).state.trace) ∧
    ((dnn_train ops w0 batchSize fuel).outcome = Outcome.converged →
      adjustCalls (dnn_train ops w0 batchSize fuel).state.trace
          + continueCount (dnn_train ops w0 batchSize fuel).state.trace + 1
        = epochsExecuted (dnn_train ops w0 batchSize fuel).state.trace) ∧
    (∀ p e acc, (dnn_train ops w0 batchSize fuel).state.trace[p]?
        = some (Event.adjustLearningRate e acc) →
      ∃ q ein, p = q + 1 ∧
        (dnn_train ops w0 batchSize fuel).state.trace[q]? = some (Event.decision e false) ∧
        Event.evalTrain e ein ∈ (dnn_train ops w0 batchSize fuel).state.trace ∧
        acc = ops.accuracy ein (ops.trainSize w0)) := by
  obtain ⟨k, sk, hk, hkM, hek, hinv, hcases⟩ := dnn_train_spec ops w0 batchSize fuel hfuel
  have hinvk : TraceInv ops (ops.trainSize w0) sk.epoch 0 sk.Eout sk.trace := by
    rw [hek]; exact hinv
  rcases hcases with ⟨hkeq, hr⟩ | ⟨hklt, s1, hb, hr⟩ | ⟨hklt, s1, hb, hr⟩
  · rw [hr]
    refine ⟨?_, (fun h => by cases h), hinv.order⟩
    intro _
    have h1 := hinv.calls
    have h2 := hinv.started
    simp only []
    omega
  · obtain ⟨-, -, hinv1, -⟩ :=
      (epochBody_exit ops (ops.trainSize w0) (ops.validSize w0) batchSize sk hinvk).2.1 s1 hb
    rw [hr]
    refine ⟨(fun h => by cases h), ?_, hinv1.order⟩
    intro _
    have h1 := hinv1.calls
    have h2 := hinv1.started
    simp only []
    omega
  · obtain ⟨-, -, hinv1, -⟩ :=
      (epochBody_exit ops (ops.trainSize w0) (ops.validSize w0) batchSize sk hinvk).2.2 s1 hb
    rw [hr]
    exact ⟨(fun h => by cases h), (fun h => by cases h), hinv1.order⟩

/-- C9: at the head of epoch `e` the history has length `e`; entries present at the head of an
epoch are the same at every later head; every exit of the body of epoch `e`, the `continue`
path included, leaves the history one entry longer, the new entry `Eout[e]` being the validation
error count evaluated in that epoch; the reads of `Eout` made by the body are at index `e`,
in bounds, and return that count; and the body faults only inside the stopping predicate. -/
theorem C9_Eout_history {W F : Type} (ops : TrainOps W F) (w0 : W) (batchSize : Nat) :
    (∀ e s, headState ops (ops.trainSize w0) (ops.validSize w0) batchSize e (initState w0)
        = some s → s.epoch = e ∧ s.Eout.length = e) ∧
    (∀ e e2 s s2, e ≤ e2 →
      headState ops (ops.trainSize w0) (ops.validSize w0) batchSize e (initState w0)
        = some s →
      headState ops (ops.trainSize w0) (ops.validSize w0) batchSize e2 (initState w0)
        = some s2 →
      ∀ i, i < e → s2.Eout[i]? = s.Eout[i]?) ∧
    (∀ e s, headState ops (ops.trainSize w0) (ops.validSize w0) batchSize e (initState w0)
        = some s →
      (epochBody ops (ops.trainSize w0) (ops.validSize w0) batchSize s).state.epoch = e ∧
      (epochBody ops (ops.trainSize w0) (ops.validSize w0) batchSize s).state.Eout
        = s.Eout ++ [(epochEval ops (ops.trainSize w0) batchSize s).EoutNew] ∧
      (epochBody ops (ops.trainSize w0) (ops.validSize w0) batchSize s).state.Eout.length
        = e + 1 ∧
      (epochBody ops (ops.trainSize w0) (ops.validSize w0) batchSize s).state.Eout[e]?
        = some (epochEval ops (ops.trainSize w0) batchSize s).EoutNew ∧
      (∃ blk,
        (epochBody ops (ops.trainSize w0) (ops.validSize w0) batchSize s).state.trace
          = s.trace ++ blk ∧
        Event.pushBack e (epochEval ops (ops.trainSize w0) batchSize s).EoutNew ∈ blk ∧
        ∀ idx v, Event.readEout idx v ∈ blk →
          idx = e ∧ v = (epochEval ops (ops.trainSize w0) batchSize s).EoutNew) ∧
      (∀ s1, epochBody ops (ops.trainSize w0) (ops.validSize w0) batchSize s
          = BodyExit.fault s1 →
        stopTestFaults ops (ops.trainSize w0) (ops.validSize w0) batchSize s)) := by
  have hinit : TraceInv ops (ops.trainSize w0) (initState w0 : TrainState W F).epoch 0
      (initState w0 : TrainState W F).Eout (initState w0 : TrainState W F).trace :=
    traceInv_init ops (ops.trainSize w0)
  have hhead : ∀ e s,
      headState ops (ops.trainSize w0) (ops.validSize w0) batchSize e (initState w0) = some s →
      s.epoch = e ∧ TraceInv ops (ops.trainSize w0) s.epoch 0 s.Eout s.trace := by
    intro e s he
    obtain ⟨h1, h2, -⟩ := headState_inv ops (ops.trainSize w0) (ops.validSize w0) batchSize e
      (initState w0) s hinit he
    exact ⟨by simpa [initState] using h1, h2⟩
  refine ⟨?_, ?_, ?_⟩
  · intro e s he
    obtain ⟨h1, h2⟩ := hhead e s he
    exact ⟨h1, by rw [h2.len, h1]⟩
  · intro e e2 s s2 hle he he2 i hi
    obtain ⟨sk, hsk, hrest⟩ := headState_split ops (ops.trainSize w0) (ops.validSize w0)
      batchSize hle he2
    rw [he] at hsk
    cases hsk
    obtain ⟨h1, h2⟩ := hhead e s he
    obtain ⟨-, -, h3⟩ := headState_inv ops (ops.trainSize w0) (ops.validSize w0) batchSize
      (e2 - e) s s2 h2 hrest
    exact h3 i (by rw [h2.len, h1]; exact hi)
  · intro e s he
    obtain ⟨h1, h2⟩ := hhead e s he
    obtain ⟨hx1, hx2, c, blk, hx3, hblk⟩ :=
      epochBody_state ops (ops.trainSize w0) (ops.validSize w0) batchSize s h2
    have hlen : s.Eout.length = e := by rw [h2.len, h1]
    refine ⟨by rw [hx1, h1], hx2, ?_, ?_, ⟨blk, hx3, ?_, ?_⟩, ?_⟩
    · rw [hx2]; simp [hlen]
    · rw [hx2]; exact getElem?_concat_length s.Eout _ hlen
    · rw [← h1]; exact hblk.pushedIn
    · intro idx v hmem
      rw [← h1]
      exact hblk.reads idx v hmem
    · intro s1 hb
      exact ((epochBody_exit ops (ops.trainSize w0) (ops.validSize w0) batchSize s h2).2.2
        s1 hb).2.2.2


/-- C5 (counterexample): in a one-epoch run whose training evaluation reports more errors than
the training set has entries, `validAcc > minValidAccuracy` and the stopping predicate both hold
at epoch 0, yet the body takes `continue` and the loop ends by its bound.  In a run with window
2 whose validation accuracy passes the threshold at epoch 0, the stopping predicate reads out
of bounds: the loop neither converges nor executes its three epochs. -/
theorem C5_counterexample :
    ((0 < continueWorld.cfg.maxEpoch ∧
      (dnn_train scriptOps continueWorld 32 5).state.Eout = [0] ∧
      scriptOps.lt continueWorld.cfg.minValidAccuracy
        (scriptOps.accuracy 0 continueWorld.nValid) = true ∧
      isEoutStopDecrease [0] 0 continueWorld.cfg.nNonIncEpoch = some true) ∧
      (dnn_train scriptOps continueWorld 32 5).outcome = Outcome.maxEpochReached) ∧
    (wrapWorld.cfg.maxEpoch = 3 ∧
      (dnn_train scriptOps wrapWorld 32 5).outcome = Outcome.fault ∧
      epochsExecuted (dnn_train scriptOps wrapWorld 32 5).state.trace = 1) := by
  decide

/-- C5 (witness): the amended claim on a scripted run that converges in its second epoch, with
fuel 5 for at most 3 epochs. -/
theorem C5_dnn_train_exit_witness :
    (dnn_train scriptOps twoEpochWorld 32 5).outcome ≠ Outcome.outOfFuel ∧
    epochsExecuted (dnn_train scriptOps twoEpochWorld 32 5).state.trace
      ≤ (scriptOps.getConfig twoEpochWorld).maxEpoch ∧
    (∀ e, ((dnn_train scriptOps twoEpochWorld 32 5).outcome = Outcome.converged ∧
          (dnn_train scriptOps twoEpochWorld 32 5).state.epoch = e) ↔
        (e < (scriptOps.getConfig twoEpochWorld).maxEpoch ∧
          ∃ s, headState scriptOps (scriptOps.trainSize twoEpochWorld)
              (scriptOps.validSize twoEpochWorld) 32 e (initState twoEpochWorld) = some s ∧
            convergesAt scriptOps (scriptOps.trainSize twoEpochWorld)
              (scriptOps.validSize twoEpochWorld) 32 s)) ∧
    (∀ e, (dnn_train scriptOps twoEpochWorld 32 5).outcome = Outcome.converged →
        (dnn_train scriptOps twoEpochWorld 32 5).state.epoch = e →
        epochsExecuted (dnn_train scriptOps twoEpochWorld 32 5).state.trace = e + 1 ∧
        ∀ k, k < e →
          ∃ s, headState scriptOps (scriptOps.trainSize twoEpochWorld)
              (scriptOps.validSize twoEpochWorld) 32 k (initState twoEpochWorld) = some s ∧
            ¬ convergesAt scriptOps (scriptOps.trainSize twoEpochWorld)
              (scriptOps.validSize twoEpochWorld) 32 s) ∧
    ((∀ e s, e < (scriptOps.getConfig twoEpochWorld).maxEpoch →
        headState scriptOps (scriptOps.trainSize twoEpochWorld)
          (scriptOps.validSize twoEpochWorld) 32 e (initState twoEpochWorld) = some s →
        ¬ convergesAt scriptOps (scriptOps.trainSize twoEpochWorld)
          (scriptOps.validSize twoEpochWorld) 32 s ∧
        ¬ stopTestFaults scriptOps (scriptOps.trainSize twoEpochWorld)
          (scriptOps.validSize twoEpochWorld) 32 s) →
      (dnn_train scriptOps twoEpochWorld 32 5).outcome = Outcome.maxEpochReached ∧
      epochsExecuted (dnn_train scriptOps twoEpochWorld 32 5).state.trace
        = (scriptOps.getConfig twoEpochWorld).maxEpoch) :=
  C5_dnn_train_exit scriptOps twoEpochWorld 32 5 (by decide)

/-- C6 (counterexample): a run that converges in its first epoch executes one epoch and makes
no call of `adjustLearningRate`; a one-epoch run that does not converge makes its call after
the decision, as the last event of the epoch; and a one-epoch run that takes `continue` makes
no call. -/
theorem C6_counterexample :
    ((dnn_train scriptOps convergeWorld 32 5).outcome = Outcome.converged ∧
      epochsExecuted (dnn_train scriptOps convergeWorld 32 5).state.trace = 1 ∧
      adjustCalls (dnn_train scriptOps convergeWorld 32 5).state.trace = 0) ∧
    ((dnn_train scriptOps adjustWorld 32 5).outcome = Outcome.maxEpochReached ∧
      (dnn_train scriptOps adjustWorld 32 5).state.trace =
        [Event.epochStart 0, Event.evalTrain 0 3, Event.pushBack 0 6, Event.readEout 0 6,
          Event.readEout 0 6, Event.decision 0 false, Event.adjustLearningRate 0 7]) ∧
    ((dnn_train scriptOps continueWorld 32 5).outcome = Outcome.maxEpochReached ∧
      epochsExecuted (dnn_train scriptOps continueWorld 32 5).state.trace = 1 ∧
      adjustCalls (dnn_train scriptOps continueWorld 32 5).state.trace = 0) := by
  decide

/-- C6 (witness): the amended claim on a scripted run that converges in its second epoch, with
fuel 5 for at most 3 epochs. -/
theorem C6_adjust_calls_witness :
    ((dnn_train scriptOps twoEpochWorld 32 5).outcome = Outcome.maxEpochReached →
      adjustCalls (dnn_train scriptOps twoEpochWorld 32 5).state.trace
          + continueCount (dnn_train scriptOps twoEpochWorld 32 5).state.trace
        = epochsExecuted (dnn_train scriptOps twoEpochWorld 32 5).state.trace) ∧
    ((dnn_train scriptOps twoEpochWorld 32 5).outcome = Outcome.converged →
      adjustCalls (dnn_train scriptOps twoEpochWorld 32 5).state.trace
          + continueCount (dnn_train scriptOps twoEpochWorld 32 5).state.trace + 1
        = epochsExecuted (dnn_train scriptOps twoEpochWorld 32 5).state.trace) ∧
    (∀ p e acc, (dnn_train scriptOps twoEpochWorld 32 5).state.trace[p]?
        = some (Event.adjustLearningRate e acc) →
      ∃ q ein, p = q + 1 ∧
        (dnn_train scriptOps twoEpochWorld 32 5).state.trace[q]?
          = some (Event.decision e false) ∧
        Event.evalTrain e ein ∈ (dnn_train scriptOps twoEpochWorld 32 5).state.trace ∧
        acc = scriptOps.accuracy ein (scriptOps.trainSize twoEpochWorld)) :=
  C6_adjust_calls scriptOps twoEpochWorld 32 5 (by decide)

end LibDnn
